import Mathlib

/-!
# Verification of PureHTTP's request/response pipeline

Shallow embedding of `src/main.rs` of the PureHTTP desktop HTTP tester.
The core logic lives in `execute_request` (method validation, header-text
parsing, body attachment, response normalization) and `save_request`
(dialog-mediated file save).  External collaborators — the HTTP transport
(reqwest), the JSON parser (serde_json), the dialog provider and the
filesystem — are modelled as explicit parameters, exactly at the call
boundaries the Rust code uses them.

String algorithms are modelled on `List Char` (the `.data` of a `String`),
with whitespace taken as the ASCII whitespace characters, matching the
behaviour of Rust's `str::trim` / `str::lines` / `str::split_once` on the
ASCII inputs relevant here.
-/

/-- ASCII whitespace, as stripped by Rust's `str::trim` on ASCII input. -/
def isWs (c : Char) : Bool :=
  c == ' ' || c == '\t' || c == '\r' || c == '\n'

/-- `str::trim`: drop whitespace from the front and the back. -/
def trimChars (l : List Char) : List Char :=
  ((l.dropWhile isWs).reverse.dropWhile isWs).reverse

/-- Split a character list at every newline, like `String.splitOn "\n"`:
the result is always nonempty, and a trailing newline yields a trailing
empty component. -/
def splitOnNl : List Char → List (List Char)
  | [] => [[]]
  | c :: rest =>
    if c = '\n' then [] :: splitOnNl rest
    else
      let r := splitOnNl rest
      (c :: r.headD []) :: r.tail

/-- Drop a single trailing carriage return, as Rust's `str::lines` does to
each produced line. -/
def stripCr (l : List Char) : List Char :=
  if l.getLast? = some '\r' then l.dropLast else l

/-- Rust's `str::lines`: split on `'\n'`, drop the empty piece a trailing
newline would produce, and strip one trailing `'\r'` from each line. -/
def rustLines (s : List Char) : List (List Char) :=
  let parts := splitOnNl s
  let parts := if parts.getLast? = some ([] : List Char) then parts.dropLast else parts
  parts.map stripCr

/-- Rust's `str::split_once(':')`: split at the first colon only; `none`
when the string holds no colon. -/
def splitOnceColon : List Char → Option (List Char × List Char)
  | [] => none
  | c :: rest =>
    if c = ':' then some ([], rest)
    else
      match splitOnceColon rest with
      | some (a, b) => some (c :: a, b)
      | none => none

/-- One iteration of the header loop in `execute_request` (main.rs lines
31–40): trim the line; if it is empty, or `split_once(':')` fails, attach
nothing; otherwise attach the pair of the trimmed key and trimmed value. -/
def parseHeaderLineCh (line : List Char) : Option (List Char × List Char) :=
  let t := trimChars line
  if t = [] then none
  else
    match splitOnceColon t with
    | some (k, v) => some (trimChars k, trimChars v)
    | none => none

/-- The header loop of `execute_request`: process each line in order,
collecting the attached pairs. -/
def parseLoop : List (List Char) → List (List Char × List Char)
  | [] => []
  | line :: rest =>
    match parseHeaderLineCh line with
    | some kv => kv :: parseLoop rest
    | none => parseLoop rest

/-- Header parsing of `execute_request` (main.rs lines 29–41): if the whole
block trims to empty, do nothing; otherwise run the loop over its lines. -/
def parseHeadersCh (s : List Char) : List (List Char × List Char) :=
  if trimChars s = [] then [] else parseLoop (rustLines s)

/-- `str::trim` lifted to `String`. -/
def trimS (s : String) : String :=
  String.mk (trimChars s.data)

/-- Header parsing on `String` input, producing `String` pairs: the request
builder half of `execute_request`. -/
def parseHeadersS (s : String) : List (String × String) :=
  (parseHeadersCh s.data).map (fun p => (String.mk p.1, String.mk p.2))

example : parseHeadersS "A: 1\nbadline\nB: 2" = [("A", "1"), ("B", "2")] := by decide
example : parseHeadersS ": value" = [("", "value")] := by decide
example : parseHeadersS ":" = [("", "")] := by decide
example : parseHeadersS "A: 1\nA: 2" = [("A", "1"), ("A", "2")] := by decide
example : parseHeadersS "  \n \t " = [] := by decide
example : parseHeadersS "A: b:c " = [("A", "b:c")] := by decide

/-- The HTTP methods `execute_request` accepts (main.rs lines 20–26). -/
inductive Method where
  | GET | POST | PUT | PATCH | DELETE
deriving DecidableEq, Repr

/-- The method match of `execute_request` (main.rs lines 20–27): an exact,
case-sensitive match against the five supported methods; anything else is
rejected. -/
def parseMethod (m : String) : Option Method :=
  if m = "GET" then some .GET
  else if m = "POST" then some .POST
  else if m = "PUT" then some .PUT
  else if m = "PATCH" then some .PATCH
  else if m = "DELETE" then some .DELETE
  else none

/-- Mirror of `serde_json::Value`: the shape of a parsed JSON body. -/
inductive Json where
  | null
  | bool (b : Bool)
  | num (n : Int)
  | str (s : String)
  | arr (xs : List Json)
  | obj (kvs : List (String × Json))

/-- Body attachment of `execute_request` (main.rs lines 43–48): a provided
body is attached verbatim unless it trims to empty; an absent body attaches
nothing. -/
def attachBody (body : Option String) : Option String :=
  match body with
  | some b => if trimS b ≠ "" then some b else none
  | none => none

/-- The outbound request `execute_request` hands to the transport: method,
untouched URL, parsed header pairs, and the optionally attached body. -/
structure RequestSpec where
  method : Method
  url : String
  headers : List (String × String)
  body : Option String
deriving DecidableEq

/-- The request-builder half of `execute_request` for a recognized method. -/
def buildRequest (mth : Method) (url headersText : String) (body : Option String) : RequestSpec :=
  { method := mth, url := url, headers := parseHeadersS headersText, body := attachBody body }

/-- What the transport (reqwest) exposes of a received response, at exactly
the points `execute_request` touches it: the numeric status, the canonical
reason phrase of `StatusCode::canonical_reason` (absent for unassigned
codes), the header collection in exposure order with each value's
`to_str()` result (absent when the bytes are not visible ASCII), and the
outcome of draining the body as text. -/
structure RawResponse where
  status : Nat
  canonicalReason : Option String
  headers : List (String × Option String)
  text : Except String String

/-- The structured result `execute_request` returns (struct `HttpResponse`
in main.rs). -/
structure HttpResponse where
  status : Nat
  status_text : String
  headers : String
  body : Json

/-- Header flattening of `execute_request` (main.rs lines 55–59): render
each response header as `name: value\n`, an undecodable value as the empty
string via `unwrap_or("")`, and concatenate in exposure order. -/
def flattenRespHeaders : List (String × Option String) → String
  | [] => ""
  | (n, v) :: rest => n ++ ": " ++ v.getD "" ++ "\n" ++ flattenRespHeaders rest

/-- Body normalization of `execute_request` (main.rs lines 63–67): try the
JSON parse of the whole text; on success keep the parsed value, on failure
wrap the original text as a JSON string. -/
def normalizeBody (parseJson : String → Option Json) (text : String) : Json :=
  match parseJson text with
  | some json => json
  | none => Json.str text

/-- The response-normalizer half of `execute_request` (main.rs lines
50–74): extract status and reason phrase (defaulting to "Unknown"),
flatten the headers, read the body text — propagating a read failure as
the call's error — and normalize the body. -/
def normalizeResponse (parseJson : String → Option Json) (r : RawResponse) :
    Except String HttpResponse :=
  let status := r.status
  let status_text := (r.canonicalReason.getD "Unknown")
  let headers_text := flattenRespHeaders r.headers
  match r.text with
  | .error e => .error e
  | .ok text =>
    .ok { status := status, status_text := status_text, headers := headers_text,
          body := normalizeBody parseJson text }

/-- `execute_request` (main.rs lines 12–79), with the transport and the
JSON parser as explicit collaborators: validate the method (rejecting
anything outside the five supported ones before any dispatch), build the
request from the header text and optional body, send it, and normalize the
raw response; a transport error is passed through as the call's error. -/
def execute_request (send : RequestSpec → Except String RawResponse)
    (parseJson : String → Option Json)
    (method url headers : String) (body : Option String) :
    Except String HttpResponse :=
  match parseMethod method with
  | none => .error "Unsupported HTTP method"
  | some mth =>
    match send (buildRequest mth url headers body) with
    | .error e => .error e
    | .ok r => normalizeResponse parseJson r

/-- `save_request` (main.rs lines 82–98), with the dialog provider and the
filesystem as explicit collaborators: the dialog yields an optional path;
with no path the call fails with "Save cancelled" and the file map is
untouched; with a path the write collaborator either fails (`fs::write`
error, mapped to its message) or stores the content verbatim at the path. -/
def save_request {P : Type} [DecidableEq P] (dialogPath : Option P)
    (writeErr : P → Option String) (fs : P → Option String) (content : String) :
    Except String Unit × (P → Option String) :=
  match dialogPath with
  | some path =>
    match writeErr path with
    | some e => (.error e, fs)
    | none => (.ok (), fun q => if q = path then some content else fs q)
  | none => (.error "Save cancelled", fs)

example : parseMethod "HEAD" = none := by decide
example : parseMethod "get" = none := by decide
example : parseMethod "" = none := by decide
example : parseMethod "GET" = some .GET := by decide
example : attachBody (some "   \n  ") = none := by decide
example : attachBody (some " x ") = some " x " := by decide
example : flattenRespHeaders [("A", some "1"), ("B", none)] = "A: 1\nB: \n" := by decide

/-! ## Supporting lemmas about the header parser -/

theorem parseLoop_eq_filterMap (ls : List (List Char)) :
    parseLoop ls = ls.filterMap parseHeaderLineCh := by
  induction ls with
  | nil => rfl
  | cons line rest ih =>
    simp only [parseLoop, List.filterMap_cons]
    cases parseHeaderLineCh line <;> simp [ih]

theorem mem_dropWhile_of_not {p : Char → Bool} {c : Char} {l : List Char}
    (hc : p c = false) (h : c ∈ l) : c ∈ l.dropWhile p := by
  induction l with
  | nil => cases h
  | cons a t ih =>
    by_cases ha : p a
    · rw [List.dropWhile_cons_of_pos ha]
      rcases List.mem_cons.mp h with rfl | ht
      · rw [ha] at hc; cases hc
      · exact ih ht
    · rw [List.dropWhile_cons_of_neg ha]
      exact h

theorem allWs_of_trim_nil {s : List Char} (h : trimChars s = []) :
    ∀ c ∈ s, isWs c := by
  intro c hc
  by_contra hws
  have hws' : isWs c = false := by
    cases hx : isWs c
    · rfl
    · exact absurd hx hws
  have h1 : (s.dropWhile isWs).reverse.dropWhile isWs = [] := by
    have := congrArg List.reverse h
    simpa [trimChars] using this
  have h2 : ∀ x ∈ (s.dropWhile isWs).reverse, isWs x :=
    List.dropWhile_eq_nil_iff.mp h1
  have hc1 : c ∈ s.dropWhile isWs := mem_dropWhile_of_not hws' hc
  have := h2 c (List.mem_reverse.mpr hc1)
  rw [hws'] at this
  cases this

theorem trim_nil_of_allWs {l : List Char} (h : ∀ c ∈ l, isWs c) :
    trimChars l = [] := by
  have h1 : l.dropWhile isWs = [] := List.dropWhile_eq_nil_iff.mpr h
  simp [trimChars, h1]

theorem splitOnNl_ne_nil (s : List Char) : splitOnNl s ≠ [] := by
  cases s with
  | nil => simp [splitOnNl]
  | cons c t => simp only [splitOnNl]; split <;> simp

theorem mem_splitOnNl {s l : List Char} {c : Char}
    (hl : l ∈ splitOnNl s) (hc : c ∈ l) : c ∈ s := by
  induction s generalizing l with
  | nil =>
    simp only [splitOnNl, List.mem_singleton] at hl
    subst hl; cases hc
  | cons a t ih =>
    obtain ⟨m, ms, hr⟩ : ∃ m ms, splitOnNl t = m :: ms := by
      cases hx : splitOnNl t with
      | nil => exact absurd hx (splitOnNl_ne_nil t)
      | cons m ms => exact ⟨m, ms, rfl⟩
    have hm : m ∈ splitOnNl t := by rw [hr]; exact List.mem_cons_self m ms
    by_cases ha : a = '\n'
    · rw [splitOnNl, if_pos ha] at hl
      rcases List.mem_cons.mp hl with rfl | hl'
      · cases hc
      · exact List.mem_cons_of_mem a (ih hl' hc)
    · rw [splitOnNl, if_neg ha] at hl
      simp only [hr, List.headD_cons, List.tail_cons] at hl
      rcases List.mem_cons.mp hl with rfl | hl'
      · rcases List.mem_cons.mp hc with rfl | hc'
        · exact List.mem_cons_self _ _
        · exact List.mem_cons_of_mem a (ih hm hc')
      · have hms : l ∈ splitOnNl t := by rw [hr]; exact List.mem_cons_of_mem m hl'
        exact List.mem_cons_of_mem a (ih hms hc)

theorem mem_stripCr {l : List Char} {c : Char} (h : c ∈ stripCr l) : c ∈ l := by
  unfold stripCr at h
  split at h
  · exact (List.dropLast_sublist l).subset h
  · exact h

theorem mem_rustLines {s line : List Char} {c : Char}
    (hl : line ∈ rustLines s) (hc : c ∈ line) : c ∈ s := by
  unfold rustLines at hl
  simp only [List.mem_map] at hl
  obtain ⟨raw, hraw, rfl⟩ := hl
  have hraw' : raw ∈ splitOnNl s := by
    by_cases hlast : (splitOnNl s).getLast? = some ([] : List Char)
    · rw [if_pos hlast] at hraw
      exact (List.dropLast_sublist _).subset hraw
    · rw [if_neg hlast] at hraw
      exact hraw
  exact mem_splitOnNl hraw' (mem_stripCr hc)

theorem parseHeaderLine_none_of_allWs {line : List Char}
    (h : ∀ c ∈ line, isWs c) : parseHeaderLineCh line = none := by
  have : trimChars line = [] := trim_nil_of_allWs h
  simp [parseHeaderLineCh, this]

theorem parseLoop_nil_of_all_none {ls : List (List Char)}
    (h : ∀ line ∈ ls, parseHeaderLineCh line = none) : parseLoop ls = [] := by
  induction ls with
  | nil => rfl
  | cons line rest ih =>
    have h1 := h line (List.mem_cons_self _ _)
    simp only [parseLoop, h1]
    exact ih (fun l hl => h l (List.mem_cons_of_mem _ hl))

/-- The leading emptiness guard in the Rust code is redundant: when the
whole block trims to empty, every line is whitespace-only and the loop
attaches nothing anyway. -/
theorem parseHeadersCh_eq_loop (s : List Char) :
    parseHeadersCh s = parseLoop (rustLines s) := by
  unfold parseHeadersCh
  split
  · rename_i htrim
    have hws := allWs_of_trim_nil htrim
    refine (parseLoop_nil_of_all_none ?_).symm
    intro line hline
    exact parseHeaderLine_none_of_allWs (fun c hc => hws c (mem_rustLines hline hc))
  · rfl

/-! ## Claim theorems: header parsing, method validation, body handling -/

/-- C1: header parsing processes the text line by line in order; each line
is trimmed; a line empty after trimming or lacking a colon is skipped
without error and without affecting adjacent lines (the result is exactly
the per-line `filterMap` over the lines, with no interaction between
lines); otherwise the line is split at the first colon only, name and
value are trimmed, and the pair is attached; duplicates are all kept in
line order.  In particular "A: 1\nbadline\nB: 2" yields exactly
[("A","1"), ("B","2")], and duplicate names survive in order. -/
theorem c1_header_parsing :
    (∀ s : String, parseHeadersS s =
      ((rustLines s.data).filterMap parseHeaderLineCh).map
        (fun p => (String.mk p.1, String.mk p.2))) ∧
    parseHeadersS "A: 1\nbadline\nB: 2" = [("A", "1"), ("B", "2")] ∧
    parseHeadersS "A: 1\nA: 2" = [("A", "1"), ("A", "2")] := by
  refine ⟨?_, by decide, by decide⟩
  intro s
  rw [parseHeadersS, parseHeadersCh_eq_loop, parseLoop_eq_filterMap]

/-- C10: a header line that has a colon but whose name part trims to empty
is not skipped: ": value" attaches the pair ("", "value") and ":" attaches
("", ""); only lines empty after trimming or with no colon at all are
skipped, and such a line between valid ones is attached in order. -/
theorem c10_empty_name_attached :
    parseHeadersS ": value" = [("", "value")] ∧
    parseHeadersS ":" = [("", "")] ∧
    parseHeadersS "A: 1\n: value\nB: 2" = [("A", "1"), ("", "value"), ("B", "2")] := by
  exact ⟨by decide, by decide, by decide⟩

/-- C2: any method string outside the exact, case-sensitive set
{GET, POST, PUT, PATCH, DELETE} makes `execute_request` return the
UnsupportedMethod error; the result is this error for every transport
whatsoever, so no network I/O can have been attempted. -/
theorem c2_unsupported_method (send : RequestSpec → Except String RawResponse)
    (parseJson : String → Option Json) (method url headers : String) (body : Option String)
    (h : method ∉ (["GET", "POST", "PUT", "PATCH", "DELETE"] : List String)) :
    execute_request send parseJson method url headers body =
      .error "Unsupported HTTP method" := by
  have hm : parseMethod method = none := by
    simp only [List.mem_cons, List.not_mem_nil, or_false, not_or] at h
    obtain ⟨h1, h2, h3, h4, h5⟩ := h
    simp [parseMethod, h1, h2, h3, h4, h5]
  simp [execute_request, hm]

/-- C2 witness: "HEAD", "get" and "" are all rejected with the
UnsupportedMethod error, under a transport that would report having been
contacted. -/
theorem c2_witness :
    ("HEAD" ∉ (["GET", "POST", "PUT", "PATCH", "DELETE"] : List String)) ∧
    ("get" ∉ (["GET", "POST", "PUT", "PATCH", "DELETE"] : List String)) ∧
    ("" ∉ (["GET", "POST", "PUT", "PATCH", "DELETE"] : List String)) ∧
    execute_request (fun _ => Except.error "network contacted") (fun _ => none)
      "HEAD" "https://example.test" "" none = .error "Unsupported HTTP method" ∧
    execute_request (fun _ => Except.error "network contacted") (fun _ => none)
      "get" "https://example.test" "" none = .error "Unsupported HTTP method" ∧
    execute_request (fun _ => Except.error "network contacted") (fun _ => none)
      "" "https://example.test" "" none = .error "Unsupported HTTP method" :=
  ⟨by decide, by decide, by decide,
   c2_unsupported_method _ _ _ _ _ _ (by decide),
   c2_unsupported_method _ _ _ _ _ _ (by decide),
   c2_unsupported_method _ _ _ _ _ _ (by decide)⟩

/-- C3: body normalization has exactly two outcomes: when the JSON parse
of the whole text succeeds the result body is the parsed value (of
whatever shape), and on any parse failure the result body is the entire
original text wrapped as a plain JSON string; and in a successful
normalization the response's body is exactly this value. -/
theorem c3_json_fallback :
    ∀ (parseJson : String → Option Json) (text : String),
    ((∃ j, parseJson text = some j ∧ normalizeBody parseJson text = j) ∨
     (parseJson text = none ∧ normalizeBody parseJson text = Json.str text)) ∧
    (∀ r : RawResponse, r.text = .ok text →
      ∃ resp, normalizeResponse parseJson r = .ok resp ∧
        resp.body = normalizeBody parseJson text) := by
  intro parseJson text
  constructor
  · cases h : parseJson text with
    | some j => exact Or.inl ⟨j, rfl, by simp [normalizeBody, h]⟩
    | none => exact Or.inr ⟨rfl, by simp [normalizeBody, h]⟩
  · intro r hr
    refine ⟨{ status := r.status, status_text := r.canonicalReason.getD "Unknown",
              headers := flattenRespHeaders r.headers,
              body := normalizeBody parseJson text }, ?_, rfl⟩
    simp [normalizeResponse, hr]

/-- C3 witness: with a parser that accepts nothing, the raw text "plain
text" comes back wrapped as a JSON string in the normalized response. -/
theorem c3_witness :
    (RawResponse.mk 200 (some "OK") [] (Except.ok "plain text")).text =
      Except.ok "plain text" ∧
    (∃ resp, normalizeResponse (fun _ => none)
        (RawResponse.mk 200 (some "OK") [] (Except.ok "plain text")) = .ok resp ∧
      resp.body = normalizeBody (fun _ => none) "plain text") :=
  ⟨rfl, (c3_json_fallback (fun _ => none) "plain text").2
    (RawResponse.mk 200 (some "OK") [] (Except.ok "plain text")) rfl⟩

/-- C5: a provided body that is whitespace-only makes `execute_request`
behave exactly as a call with no body at all; a provided body that is
non-whitespace after trimming is attached verbatim, with the parsed
headers exactly those of the header text (no content-type inference, no
injected defaults). -/
theorem c5_whitespace_body :
    (∀ (send : RequestSpec → Except String RawResponse)
       (parseJson : String → Option Json) (method url headers b : String),
       trimS b = "" →
       execute_request send parseJson method url headers (some b) =
         execute_request send parseJson method url headers none) ∧
    (∀ (mth : Method) (url headers b : String), trimS b ≠ "" →
       buildRequest mth url headers (some b) =
         { method := mth, url := url, headers := parseHeadersS headers, body := some b }) := by
  constructor
  · intro send parseJson method url headers b hb
    have hat : attachBody (some b) = attachBody none := by simp [attachBody, hb]
    simp only [execute_request, buildRequest, hat]
  · intro mth url headers b hb
    simp [buildRequest, attachBody, hb]

/-- C5 witness: the whitespace-only body "   \n  " is treated as no body
under a concrete transport, and the body "{}" is attached verbatim. -/
theorem c5_witness :
    trimS "   \n  " = "" ∧
    execute_request (fun _ => Except.error "e") (fun _ => none) "GET" "u" "" (some "   \n  ") =
      execute_request (fun _ => Except.error "e") (fun _ => none) "GET" "u" "" none ∧
    trimS "{}" ≠ "" ∧
    buildRequest Method.GET "u" "" (some "{}") =
      { method := Method.GET, url := "u", headers := parseHeadersS "", body := some "{}" } :=
  ⟨by decide,
   c5_whitespace_body.1 (fun _ => Except.error "e") (fun _ => none) "GET" "u" "" "   \n  "
     (by decide),
   by decide,
   c5_whitespace_body.2 Method.GET "u" "" "{}" (by decide)⟩

/-! ## Claim theorems: response normalization and saving -/

/-- C7: in a successful normalization the statusText is the canonical
reason phrase whenever the transport supplies one, and is exactly
"Unknown" when it supplies none. -/
theorem c7_status_text (parseJson : String → Option Json) (r : RawResponse) (t : String)
    (h : r.text = .ok t) :
    ∃ resp, normalizeResponse parseJson r = .ok resp ∧
      resp.status_text = r.canonicalReason.getD "Unknown" ∧
      (∀ p, r.canonicalReason = some p → resp.status_text = p) ∧
      (r.canonicalReason = none → resp.status_text = "Unknown") := by
  refine ⟨{ status := r.status, status_text := r.canonicalReason.getD "Unknown",
            headers := flattenRespHeaders r.headers,
            body := normalizeBody parseJson t }, ?_, rfl, ?_, ?_⟩
  · simp [normalizeResponse, h]
  · intro p hp; simp [hp]
  · intro hp; simp [hp]

/-- C7 witness: a response with status 799 and no canonical reason phrase
normalizes with statusText "Unknown". -/
theorem c7_witness :
    ∃ resp, normalizeResponse (fun _ => none)
        (RawResponse.mk 799 none [] (Except.ok "hi")) = .ok resp ∧
      resp.status_text = (RawResponse.mk 799 none [] (Except.ok "hi")).canonicalReason.getD "Unknown" ∧
      (∀ p, (RawResponse.mk 799 none [] (Except.ok "hi")).canonicalReason = some p →
        resp.status_text = p) ∧
      ((RawResponse.mk 799 none [] (Except.ok "hi")).canonicalReason = none →
        resp.status_text = "Unknown") :=
  c7_status_text (fun _ => none) (RawResponse.mk 799 none [] (Except.ok "hi")) "hi" rfl

/-- C8: when the dispatched request succeeds but the body cannot be read
as text, `execute_request` fails with exactly the read error and returns
no (partial) response: the result equals the error and is never `.ok`. -/
theorem c8_body_read_error (send : RequestSpec → Except String RawResponse)
    (parseJson : String → Option Json) (method url headers : String) (body : Option String)
    (mth : Method) (r : RawResponse) (e : String)
    (hm : parseMethod method = some mth)
    (hs : send (buildRequest mth url headers body) = .ok r)
    (ht : r.text = .error e) :
    execute_request send parseJson method url headers body = .error e ∧
    normalizeResponse parseJson r = .error e ∧
    ∀ resp, execute_request send parseJson method url headers body ≠ .ok resp := by
  have hn : normalizeResponse parseJson r = .error e := by
    simp [normalizeResponse, ht]
  have h1 : execute_request send parseJson method url headers body = .error e := by
    simp [execute_request, hm, hs, hn]
  exact ⟨h1, hn, fun resp hcontra => by rw [h1] at hcontra; exact Except.noConfusion hcontra⟩

/-- C8 witness: a transport delivering a 200 response whose body read
fails with "read failed" makes the whole call fail with "read failed". -/
theorem c8_witness :
    parseMethod "GET" = some Method.GET ∧
    (fun _ : RequestSpec =>
        (Except.ok (RawResponse.mk 200 (some "OK") [] (Except.error "read failed")) :
          Except String RawResponse))
        (buildRequest Method.GET "u" "" none) =
      Except.ok (RawResponse.mk 200 (some "OK") [] (Except.error "read failed")) ∧
    (RawResponse.mk 200 (some "OK") [] (Except.error "read failed")).text =
      Except.error "read failed" ∧
    execute_request
        (fun _ => Except.ok (RawResponse.mk 200 (some "OK") [] (Except.error "read failed")))
        (fun _ => none) "GET" "u" "" none = .error "read failed" ∧
    normalizeResponse (fun _ => none)
        (RawResponse.mk 200 (some "OK") [] (Except.error "read failed")) = .error "read failed" ∧
    ∀ resp, execute_request
        (fun _ => Except.ok (RawResponse.mk 200 (some "OK") [] (Except.error "read failed")))
        (fun _ => none) "GET" "u" "" none ≠ .ok resp := by
  refine ⟨by decide, rfl, rfl, ?_⟩
  exact c8_body_read_error
    (fun _ => Except.ok (RawResponse.mk 200 (some "OK") [] (Except.error "read failed")))
    (fun _ => none) "GET" "u" "" none Method.GET
    (RawResponse.mk 200 (some "OK") [] (Except.error "read failed")) "read failed"
    (by decide) rfl rfl

/-- C9: a dismissed save dialog (no path) makes `save_request` return the
"Save cancelled" error with the file map untouched; a chosen path with a
succeeding write stores the content verbatim at that path and the call
returns ok. -/
theorem c9_save_cancelled {P : Type} [DecidableEq P] (writeErr : P → Option String)
    (fs : P → Option String) (content : String) :
    save_request (P := P) none writeErr fs content = (.error "Save cancelled", fs) ∧
    (∀ path, writeErr path = none →
      (save_request (some path) writeErr fs content).1 = .ok () ∧
      (save_request (some path) writeErr fs content).2 path = some content) := by
  refine ⟨rfl, ?_⟩
  intro path hw
  simp [save_request, hw]

/-- C9 witness: over `Nat` paths with an always-succeeding write, a
dismissed dialog cancels with no write, and choosing path 0 stores the
content there. -/
theorem c9_witness :
    save_request (P := Nat) none (fun _ => none) (fun _ => none) "data" =
      (.error "Save cancelled", fun _ => none) ∧
    ((fun _ : Nat => (none : Option String)) 0 = none →
      (save_request (some 0) (fun _ : Nat => (none : Option String)) (fun _ => none) "data").1 = .ok () ∧
      (save_request (some 0) (fun _ : Nat => (none : Option String)) (fun _ => none) "data").2 0 =
        some "data") :=
  ⟨(c9_save_cancelled (fun _ => none) (fun _ => none) "data").1,
   fun hw => (c9_save_cancelled (fun _ => none) (fun _ => none) "data").2 0 hw⟩

/-! ## Flattening lemmas -/

/-- Character-level form of one flattened header line, `name: value`. -/
def lineOf (p : List Char × List Char) : List Char :=
  p.1 ++ ':' :: ' ' :: p.2

/-- Character-level form of the flattened header block. -/
def flattenCh : List (List Char × List Char) → List Char
  | [] => []
  | p :: rest => lineOf p ++ '\n' :: flattenCh rest

/-- Decode header pairs to their character lists, an undecodable value to
the empty list. -/
def dataPairs (hs : List (String × Option String)) : List (List Char × List Char) :=
  hs.map (fun p => (p.1.data, (p.2.getD "").data))

theorem data_append (a b : String) : (a ++ b).data = a.data ++ b.data := rfl

theorem colonSpace_data : (": ").data = [':', ' '] := rfl

theorem nl_data : ("\n").data = ['\n'] := rfl

theorem flattenRespHeaders_data (hs : List (String × Option String)) :
    (flattenRespHeaders hs).data = flattenCh (dataPairs hs) := by
  induction hs with
  | nil => rfl
  | cons p rest ih =>
    obtain ⟨n, v⟩ := p
    simp only [flattenRespHeaders, dataPairs, List.map_cons, flattenCh, data_append,
      colonSpace_data, nl_data, lineOf]
    rw [show dataPairs rest = rest.map (fun p => (p.1.data, (p.2.getD "").data)) from rfl] at ih
    rw [ih]
    simp [List.append_assoc]

theorem splitOnNl_append {l s : List Char} (h : ('\n' : Char) ∉ l) :
    splitOnNl (l ++ '\n' :: s) = l :: splitOnNl s := by
  induction l with
  | nil => simp [splitOnNl]
  | cons c t ih =>
    have hc : ¬(c = '\n') := fun he => h (he ▸ List.mem_cons_self c t)
    have ht : ('\n' : Char) ∉ t := fun hm => h (List.mem_cons_of_mem c hm)
    simp only [List.cons_append, splitOnNl, if_neg hc, List.append_eq, ih ht,
      List.headD_cons, List.tail_cons]

theorem splitOnNl_flattenCh {chs : List (List Char × List Char)}
    (h : ∀ p ∈ chs, ('\n' : Char) ∉ lineOf p) :
    splitOnNl (flattenCh chs) = chs.map lineOf ++ [[]] := by
  induction chs with
  | nil => rfl
  | cons p rest ih =>
    rw [flattenCh, splitOnNl_append (h p (List.mem_cons_self p rest)),
      ih (fun q hq => h q (List.mem_cons_of_mem p hq)), List.map_cons, List.cons_append]

theorem rustLines_flattenCh {chs : List (List Char × List Char)}
    (h : ∀ p ∈ chs, ('\n' : Char) ∉ lineOf p) :
    rustLines (flattenCh chs) = (chs.map lineOf).map stripCr := by
  simp only [rustLines]
  rw [splitOnNl_flattenCh h, List.getLast?_concat, if_pos rfl, List.dropLast_concat]

/-- C6: header flattening renders each header as `name + ": " + value +
"\n"` in exposure order (it distributes over concatenation and renders the
head line first), a value the transport cannot decode as text is rendered
with the empty string as value, and — whenever names and decoded values
are newline-free, as HTTP headers are — the flattened text has exactly one
line per header: no line is ever dropped.  The operation is total, so it
never aborts. -/
theorem c6_flatten_headers :
    (∀ hs ks, flattenRespHeaders (hs ++ ks) =
      flattenRespHeaders hs ++ flattenRespHeaders ks) ∧
    (∀ n v rest, flattenRespHeaders ((n, some v) :: rest) =
      n ++ ": " ++ v ++ "\n" ++ flattenRespHeaders rest) ∧
    (∀ n rest, flattenRespHeaders ((n, none) :: rest) =
      n ++ ": " ++ "" ++ "\n" ++ flattenRespHeaders rest) ∧
    flattenRespHeaders [("A", some "1"), ("B", none)] = "A: 1\nB: \n" ∧
    (∀ hs : List (String × Option String),
      (∀ p ∈ hs, ('\n' : Char) ∉ p.1.data ∧ ('\n' : Char) ∉ (p.2.getD "").data) →
      (rustLines (flattenRespHeaders hs).data).length = hs.length) := by
  refine ⟨?_, fun n v rest => rfl, fun n rest => rfl, by decide, ?_⟩
  · intro hs ks
    induction hs with
    | nil => simp [flattenRespHeaders]
    | cons p rest ih =>
      obtain ⟨n, v⟩ := p
      simp [flattenRespHeaders, ih, String.append_assoc]
  · intro hs h
    have hnl : ∀ q ∈ dataPairs hs, ('\n' : Char) ∉ lineOf q := by
      intro q hq
      simp only [dataPairs, List.mem_map] at hq
      obtain ⟨p, hp, rfl⟩ := hq
      obtain ⟨h1, h2⟩ := h p hp
      simp only [lineOf, List.mem_append, List.mem_cons, not_or]
      exact ⟨h1, by decide, by decide, h2⟩
    rw [flattenRespHeaders_data, rustLines_flattenCh hnl]
    simp [dataPairs]

/-- C6 witness: two headers, the second with an undecodable value, flatten
to exactly two lines. -/
theorem c6_witness :
    (∀ p ∈ [("A", some "1"), ("B", (none : Option String))],
      ('\n' : Char) ∉ p.1.data ∧ ('\n' : Char) ∉ (p.2.getD "").data) ∧
    (rustLines (flattenRespHeaders [("A", some "1"), ("B", none)]).data).length =
      ([("A", some "1"), ("B", (none : Option String))]).length :=
  ⟨by decide, c6_flatten_headers.2.2.2.2 [("A", some "1"), ("B", none)] (by decide)⟩

/-! ## Round-trip lemmas for well-formed header blocks -/

theorem lengthDropWhileLe (p : Char → Bool) (l : List Char) :
    (l.dropWhile p).length ≤ l.length :=
  (List.dropWhile_suffix p).sublist.length_le

theorem dropWhile_eq_self_of_length {p : Char → Bool} {l : List Char}
    (h : (l.dropWhile p).length = l.length) : l.dropWhile p = l := by
  cases l with
  | nil => rfl
  | cons a t =>
    by_cases ha : p a
    · rw [List.dropWhile_cons_of_pos ha] at h ⊢
      have hle := lengthDropWhileLe p t
      simp at h
      omega
    · exact List.dropWhile_cons_of_neg ha

theorem trim_front {l : List Char} (h : trimChars l = l) : l.dropWhile isWs = l := by
  have h1 : (l.dropWhile isWs).length ≤ l.length := lengthDropWhileLe _ _
  have h2 : ((l.dropWhile isWs).reverse.dropWhile isWs).length ≤
      (l.dropWhile isWs).length := by
    simpa using lengthDropWhileLe isWs (l.dropWhile isWs).reverse
  have h3 : (trimChars l).length =
      ((l.dropWhile isWs).reverse.dropWhile isWs).length := by
    simp [trimChars]
  rw [h] at h3
  exact dropWhile_eq_self_of_length (by omega)

theorem trim_back {l : List Char} (h : trimChars l = l) :
    l.reverse.dropWhile isWs = l.reverse := by
  have hf := trim_front h
  have heq : trimChars l = (l.reverse.dropWhile isWs).reverse := by
    rw [trimChars, hf]
  rw [h] at heq
  have := congrArg List.reverse heq
  simpa using this.symm

theorem not_ws_head {p : Char → Bool} {c : Char} {t : List Char}
    (h : (c :: t).dropWhile p = c :: t) : p c = false := by
  cases hpc : p c with
  | false => rfl
  | true =>
    exfalso
    rw [List.dropWhile_cons_of_pos hpc] at h
    have hle := lengthDropWhileLe p t
    have hlen := congrArg List.length h
    simp at hlen
    omega

theorem dropWhile_append_of_fixed {p : Char → Bool} {l : List Char} (m : List Char)
    (h : l.dropWhile p = l) (hne : l ≠ []) : (l ++ m).dropWhile p = l ++ m := by
  cases l with
  | nil => exact absurd rfl hne
  | cons c t =>
    have hc := not_ws_head h
    rw [List.cons_append, List.dropWhile_cons_of_neg (by simp [hc])]

theorem dropWs_colon_line {n : List Char} (hn : trimChars n = n) (m : List Char) :
    (n ++ ':' :: m).dropWhile isWs = n ++ ':' :: m := by
  cases hcase : n with
  | nil =>
    simp only [List.nil_append]
    rw [List.dropWhile_cons_of_neg (by decide)]
  | cons c t =>
    rw [← hcase]
    exact dropWhile_append_of_fixed _ (trim_front hn) (by simp [hcase])

theorem trim_lineOf {n v : List Char} (hn : trimChars n = n) (hv : trimChars v = v) :
    trimChars (n ++ ':' :: ' ' :: v) =
      if v = [] then n ++ [':'] else n ++ ':' :: ' ' :: v := by
  have hfront : (n ++ ':' :: ' ' :: v).dropWhile isWs = n ++ ':' :: ' ' :: v :=
    dropWs_colon_line hn (' ' :: v)
  rw [trimChars, hfront]
  by_cases hvnil : v = []
  · subst hvnil
    rw [if_pos rfl]
    have hrev : (n ++ ':' :: ' ' :: ([] : List Char)).reverse = ' ' :: ':' :: n.reverse := by
      simp
    rw [hrev, List.dropWhile_cons_of_pos (by decide), List.dropWhile_cons_of_neg (by decide)]
    simp
  · rw [if_neg hvnil]
    have hrev : (n ++ ':' :: ' ' :: v).reverse = v.reverse ++ (' ' :: ':' :: n.reverse) := by
      simp
    rw [hrev, dropWhile_append_of_fixed _ (trim_back hv) (by simp [hvnil])]
    simp

theorem splitOnceColon_append {n : List Char} (m : List Char) (h : (':' : Char) ∉ n) :
    splitOnceColon (n ++ ':' :: m) = some (n, m) := by
  induction n with
  | nil => simp [splitOnceColon]
  | cons c t ih =>
    have hc : ¬(c = ':') := fun he => h (he ▸ List.mem_cons_self c t)
    have ht : (':' : Char) ∉ t := fun hm => h (List.mem_cons_of_mem c hm)
    simp only [List.cons_append, splitOnceColon, List.append_eq, if_neg hc, ih ht]

theorem trimChars_cons_ws {c : Char} {l : List Char} (h : isWs c) :
    trimChars (c :: l) = trimChars l := by
  simp [trimChars, List.dropWhile_cons_of_pos h]

theorem parseHeaderLine_lineOf {n v : List Char} (hcolon : (':' : Char) ∉ n)
    (hn : trimChars n = n) (hv : trimChars v = v) :
    parseHeaderLineCh (n ++ ':' :: ' ' :: v) = some (n, v) := by
  have htrim := trim_lineOf hn hv
  by_cases hvnil : v = []
  · subst hvnil
    rw [if_pos rfl] at htrim
    have hsplit : splitOnceColon (n ++ [':']) = some (n, []) :=
      splitOnceColon_append [] hcolon
    simp only [parseHeaderLineCh, htrim, hsplit]
    rw [if_neg (by simp), hn, hv]
  · rw [if_neg hvnil] at htrim
    have hsplit : splitOnceColon (n ++ ':' :: ' ' :: v) = some (n, ' ' :: v) :=
      splitOnceColon_append (' ' :: v) hcolon
    simp only [parseHeaderLineCh, htrim, hsplit]
    rw [if_neg (by simp)]
    rw [trimChars_cons_ws (by decide), hn, hv]

theorem getLast_not_ws {v : List Char} (hv : trimChars v = v) {d : Char}
    (hd : v.getLast? = some d) : isWs d = false := by
  have hb := trim_back hv
  cases hrev : v.reverse with
  | nil =>
    rw [← List.head?_reverse, hrev] at hd
    simp at hd
  | cons c t =>
    rw [← List.head?_reverse, hrev, List.head?_cons] at hd
    have hc : c = d := by injection hd
    subst hc
    rw [hrev] at hb
    exact not_ws_head hb

theorem stripCr_lineOf {n v : List Char} (hv : trimChars v = v) :
    stripCr (n ++ ':' :: ' ' :: v) = n ++ ':' :: ' ' :: v := by
  rw [stripCr, if_neg]
  intro hlast
  by_cases hvnil : v = []
  · subst hvnil
    have hrev : (n ++ ':' :: ' ' :: ([] : List Char)).reverse = ' ' :: ':' :: n.reverse := by
      simp
    rw [← List.head?_reverse, hrev, List.head?_cons] at hlast
    exact absurd hlast (by decide)
  · have hrev : (n ++ ':' :: ' ' :: v).reverse = v.reverse ++ (' ' :: ':' :: n.reverse) := by
      simp
    rw [← List.head?_reverse, hrev] at hlast
    cases hvr : v.reverse with
    | nil => exact hvnil (by simpa using congrArg List.reverse hvr)
    | cons c t =>
      rw [hvr, List.cons_append, List.head?_cons] at hlast
      have hc : c = '\r' := by injection hlast
      have hgl : v.getLast? = some c := by rw [← List.head?_reverse, hvr]; rfl
      have hws := getLast_not_ws hv hgl
      rw [hc] at hws
      exact absurd hws (by decide)

theorem parseLoop_map_lineOf {chs : List (List Char × List Char)}
    (h : ∀ p ∈ chs, (':' : Char) ∉ p.1 ∧ trimChars p.1 = p.1 ∧ trimChars p.2 = p.2) :
    parseLoop (chs.map lineOf) = chs := by
  induction chs with
  | nil => rfl
  | cons p rest ih =>
    obtain ⟨h1, h2, h3⟩ := h p (List.mem_cons_self p rest)
    have hline : parseHeaderLineCh (lineOf p) = some p := by
      obtain ⟨n, v⟩ := p
      exact parseHeaderLine_lineOf h1 h2 h3
    simp only [List.map_cons, parseLoop, hline]
    rw [ih (fun q hq => h q (List.mem_cons_of_mem p hq))]

/-- Parsing inverts flattening on character-level pairs whose names hold
no colon, whose names and values hold no newline, and whose names and
values carry no edge whitespace. -/
theorem parseHeadersCh_flattenCh {chs : List (List Char × List Char)}
    (h : ∀ p ∈ chs, (':' : Char) ∉ p.1 ∧ ('\n' : Char) ∉ p.1 ∧ ('\n' : Char) ∉ p.2 ∧
      trimChars p.1 = p.1 ∧ trimChars p.2 = p.2) :
    parseHeadersCh (flattenCh chs) = chs := by
  rw [parseHeadersCh_eq_loop]
  have hnl : ∀ p ∈ chs, ('\n' : Char) ∉ lineOf p := by
    intro p hp
    obtain ⟨_, hn2, hn3, _, _⟩ := h p hp
    simp only [lineOf, List.mem_append, List.mem_cons, not_or]
    exact ⟨hn2, by decide, by decide, hn3⟩
  rw [rustLines_flattenCh hnl]
  have hstrip : (chs.map lineOf).map stripCr = chs.map lineOf := by
    induction chs with
    | nil => rfl
    | cons p rest ih =>
      obtain ⟨_, _, _, _, h5⟩ := h p (List.mem_cons_self p rest)
      have hs1 : stripCr (lineOf p) = lineOf p := by
        obtain ⟨n, v⟩ := p
        exact stripCr_lineOf h5
      simp only [List.map_cons, hs1]
      rw [ih (fun q hq => h q (List.mem_cons_of_mem p hq))
        (fun q hq => hnl q (List.mem_cons_of_mem p hq))]
  rw [hstrip]
  exact parseLoop_map_lineOf
    (fun p hp => ⟨(h p hp).1, (h p hp).2.2.2.1, (h p hp).2.2.2.2⟩)

theorem dataPairs_somePairs (hs : List (String × String)) :
    dataPairs (hs.map (fun p => (p.1, some p.2))) =
      hs.map (fun p => (p.1.data, p.2.data)) := by
  rw [dataPairs, List.map_map]
  rfl

theorem map_mk_data (l : List (String × String)) :
    (l.map (fun p => (p.1.data, p.2.data))).map (fun q => (String.mk q.1, String.mk q.2)) = l := by
  induction l with
  | nil => rfl
  | cons p t ih =>
    simp only [List.map_cons, ih]

/-- Well-formed `Name: Value` pairs: the name holds no colon, name and
value hold no newline, and neither carries leading or trailing whitespace
— the shape of ordinary HTTP headers as the transport exposes them. -/
def wellFormedHeaders (hs : List (String × String)) : Prop :=
  ∀ p ∈ hs, (':' : Char) ∉ p.1.data ∧ ('\n' : Char) ∉ p.1.data ∧ ('\n' : Char) ∉ p.2.data ∧
    trimS p.1 = p.1 ∧ trimS p.2 = p.2

/-- The headers text the Response Normalizer produces from decoded
name/value pairs. -/
def flattenPairs (hs : List (String × String)) : String :=
  flattenRespHeaders (hs.map (fun p => (p.1, some p.2)))

/-- C4: for every valid headers text block made of well-formed
`Name: Value` lines — the flattened text the Response Normalizer produces
from well-formed pairs — parsing recovers exactly the pairs, and hence
parsing followed by re-flattening reproduces the text unchanged. -/
theorem c4_roundtrip (hs : List (String × String)) (h : wellFormedHeaders hs) :
    parseHeadersS (flattenPairs hs) = hs ∧
    flattenPairs (parseHeadersS (flattenPairs hs)) = flattenPairs hs := by
  have hdata : (flattenPairs hs).data = flattenCh (hs.map (fun p => (p.1.data, p.2.data))) := by
    rw [flattenPairs, flattenRespHeaders_data, dataPairs_somePairs]
  have hwf : ∀ q ∈ hs.map (fun p => (p.1.data, p.2.data)),
      (':' : Char) ∉ q.1 ∧ ('\n' : Char) ∉ q.1 ∧ ('\n' : Char) ∉ q.2 ∧
        trimChars q.1 = q.1 ∧ trimChars q.2 = q.2 := by
    intro q hq
    simp only [List.mem_map] at hq
    obtain ⟨p, hp, rfl⟩ := hq
    obtain ⟨h1, h2, h3, h4, h5⟩ := h p hp
    exact ⟨h1, h2, h3, congrArg String.data h4, congrArg String.data h5⟩
  have hparse : parseHeadersS (flattenPairs hs) = hs := by
    rw [parseHeadersS, hdata, parseHeadersCh_flattenCh hwf, map_mk_data]
  exact ⟨hparse, by rw [hparse]⟩

/-- C4 witness: a concrete well-formed block of two headers survives the
parse/flatten round trip unchanged. -/
theorem c4_witness :
    wellFormedHeaders [("Content-Type", "application/json"), ("A", "1")] ∧
    (parseHeadersS (flattenPairs [("Content-Type", "application/json"), ("A", "1")]) =
        [("Content-Type", "application/json"), ("A", "1")] ∧
      flattenPairs
          (parseHeadersS (flattenPairs [("Content-Type", "application/json"), ("A", "1")])) =
        flattenPairs [("Content-Type", "application/json"), ("A", "1")]) :=
  ⟨by unfold wellFormedHeaders; decide,
   c4_roundtrip [("Content-Type", "application/json"), ("A", "1")]
     (by unfold wellFormedHeaders; decide)⟩
